import Mathlib

/-!
Shallow embedding of the `up-skdecide` transition adapter
(`src/up_skdecide/domain.py` and the legacy `src/upf_skdecide/domain.py`).

States of the current adapter are plain lists of expression values aligned
positionally to the fixed grounded fluent-key sequence
(`self._state_dict_keys`); the adapter rebuilds the assignment dictionary by
zipping the keys with the value list.  The legacy adapter keeps states as
dictionaries directly.  Expressions (`FNode`s of the wrapped planning
library) are modelled by a small first-order term language with the
constant-folding substitution-and-simplification evaluator that
`_subs_simplify` provides: substitute the fluent entries of the assignment
map, then fold every operator whose arguments became constants.
-/

namespace UpSkdecide

/-- Concrete constant values carried by expressions: booleans, integers
(`int` fluents) and rationals (`real` fluents). -/
inductive Val where
  | bool (b : Bool)
  | int (n : Int)
  | rat (q : ℚ)
deriving DecidableEq

/-- Expression nodes (`FNode`).  `fluent k` is a grounded fluent key that a
substitution map may replace; `param k` is a leaf the substitution never
touches (an unbound variable), so expressions containing it fail to simplify
to a constant. -/
inductive FExpr where
  | fluent (k : Nat)
  | param (k : Nat)
  | bconst (b : Bool)
  | iconst (n : Int)
  | qconst (q : ℚ)
  | plus (a b : FExpr)
  | minus (a b : FExpr)
  | fand (a b : FExpr)
  | fnot (a : FExpr)
  | feq (a b : FExpr)
deriving DecidableEq

/-- Embed a constant value back into an expression. -/
def constOf : Val → FExpr
  | .bool b => .bconst b
  | .int n => .iconst n
  | .rat q => .qconst q

/-- The constant value of an expression node, if it is a constant. -/
def constVal : FExpr → Option Val
  | .bconst b => some (.bool b)
  | .iconst n => some (.int n)
  | .qconst q => some (.rat q)
  | _ => none

/-- `FNode.is_bool_constant()`. -/
def isBoolConstant : FExpr → Bool
  | .bconst _ => true
  | _ => false

/-- `FNode.bool_constant_value()` (meaningful only on boolean constants). -/
def boolConstantValue : FExpr → Bool
  | .bconst b => b
  | _ => false

/-- Numeric addition on constants: integer arithmetic when both operands are
integers, rational arithmetic otherwise; booleans do not add. -/
def valPlus : Val → Val → Option Val
  | .int a, .int b => some (.int (a + b))
  | .int a, .rat b => some (.rat ((a : ℚ) + b))
  | .rat a, .int b => some (.rat (a + (b : ℚ)))
  | .rat a, .rat b => some (.rat (a + b))
  | _, _ => none

/-- Numeric subtraction on constants, mirroring `valPlus`. -/
def valMinus : Val → Val → Option Val
  | .int a, .int b => some (.int (a - b))
  | .int a, .rat b => some (.rat ((a : ℚ) - b))
  | .rat a, .int b => some (.rat (a - (b : ℚ)))
  | .rat a, .rat b => some (.rat (a - b))
  | _, _ => none

/-- An assignment dictionary (`Dict[FNode, FNode]`): an association list of
fluent keys to expression values, insertion-ordered like a Python dict. -/
abbrev Assignments := List (Nat × FExpr)

/-- Dictionary read: first binding of the key. -/
def lookupA : Assignments → Nat → Option FExpr
  | [], _ => none
  | (k, v) :: rest, x => if k = x then some v else lookupA rest x

/-- Last binding of the key, if any (used to reason about repeated writes). -/
def lookupLast : Assignments → Nat → Option FExpr
  | [], _ => none
  | (k, v) :: rest, x =>
    match lookupLast rest x with
    | some w => some w
    | none => if k = x then some v else none

/-- Dictionary key-membership test. -/
def hasKey : Assignments → Nat → Bool
  | [], _ => false
  | (k, _) :: rest, x => if k = x then true else hasKey rest x

/-- One Python dict write `d[k] = v`: replace the binding in place if the key
is present, append it otherwise. -/
def updateOne : Assignments → Nat → FExpr → Assignments
  | [], k, v => [(k, v)]
  | (k₀, v₀) :: rest, k, v =>
    if k₀ = k then (k, v) :: rest else (k₀, v₀) :: updateOne rest k v

/-- Python `d.update(new)`: write every binding of `new` into `d` in order.
Existing keys keep their position; new keys are appended. -/
def updateA (σ ν : Assignments) : Assignments :=
  ν.foldl (fun s kv => updateOne s kv.1 kv.2) σ

/-- Substitution step of `_subs_simplify`: replace every fluent leaf bound by
the assignment map, leave everything else in place. -/
def subst (σ : Assignments) : FExpr → FExpr
  | .fluent k =>
    match lookupA σ k with
    | some v => v
    | none => .fluent k
  | .param k => .param k
  | .bconst b => .bconst b
  | .iconst n => .iconst n
  | .qconst q => .qconst q
  | .plus a b => .plus (subst σ a) (subst σ b)
  | .minus a b => .minus (subst σ a) (subst σ b)
  | .fand a b => .fand (subst σ a) (subst σ b)
  | .fnot a => .fnot (subst σ a)
  | .feq a b => .feq (subst σ a) (subst σ b)

/-- Simplification step of `_subs_simplify`: bottom-up constant folding.  An
operator whose simplified arguments are not foldable constants stays
symbolic. -/
def simplify : FExpr → FExpr
  | .plus a b =>
    let a' := simplify a
    let b' := simplify b
    match constVal a', constVal b' with
    | some va, some vb =>
      match valPlus va vb with
      | some v => constOf v
      | none => .plus a' b'
    | _, _ => .plus a' b'
  | .minus a b =>
    let a' := simplify a
    let b' := simplify b
    match constVal a', constVal b' with
    | some va, some vb =>
      match valMinus va vb with
      | some v => constOf v
      | none => .minus a' b'
    | _, _ => .minus a' b'
  | .fand a b =>
    let a' := simplify a
    let b' := simplify b
    match a', b' with
    | .bconst x, .bconst y => .bconst (x && y)
    | _, _ => .fand a' b'
  | .fnot a =>
    let a' := simplify a
    match a' with
    | .bconst x => .bconst (!x)
    | _ => .fnot a'
  | .feq a b =>
    let a' := simplify a
    let b' := simplify b
    match constVal a', constVal b' with
    | some va, some vb => .bconst (va = vb)
    | _, _ => .feq a' b'
  | e => e

/-- `self._subs_simplify(e, assignments)`: substitute, then simplify. -/
def subsSimplify (σ : Assignments) (e : FExpr) : FExpr :=
  simplify (subst σ e)

/-- Effect kinds of the planning library (`is_assignment`, `is_increase`,
`is_decrease` are mutually exclusive and exhaustive). -/
inductive EffKind where
  | assign
  | increase
  | decrease
deriving DecidableEq

/-- One declarative effect of a grounded action: an optional guard condition
(`is_conditional` holds iff a guard is present), the grounded target fluent
key, the effect kind and the value expression. -/
structure Effect where
  condition : Option FExpr
  fluent : Nat
  kind : EffKind
  value : FExpr
deriving DecidableEq

/-- A simulated effect: the declared target fluent keys and the native value
function, which the adapter calls on the pre-transition assignment map (the
code wraps it in a `State` object whose `get_value` is dictionary lookup). -/
structure SimulatedEffect where
  fluents : List Nat
  function : Assignments → List FExpr

/-- A grounded `InstantaneousAction` of the current adapter.  The adapter
asserts the parameter list is empty, so parameters are not modelled. -/
structure InstantaneousAction where
  name : String
  preconditions : List FExpr
  effects : List Effect
  simulated_effect : Option SimulatedEffect

/-- The precondition loop of `_get_next_state`
(`src/up_skdecide/domain.py:76-82`): returns the first precondition whose
substitution-and-simplification is not a concrete true boolean, or `none`
when every precondition passes. -/
def checkPreconditions (σ : Assignments) : List FExpr → Option FExpr
  | [] => none
  | p :: rest =>
    let ps := subsSimplify σ p
    if isBoolConstant ps && boolConstantValue ps then checkPreconditions σ rest
    else some p

/-- The value a declarative effect writes, from `src/up_skdecide/domain.py:90-100`:
assignment evaluates the value expression; increase and decrease evaluate
`Plus(e.fluent, e.value)` and `Minus(e.fluent, e.value)` under the same
assignment map. -/
def effectResult (σ : Assignments) (e : Effect) : FExpr :=
  match e.kind with
  | .assign => subsSimplify σ e.value
  | .increase => subsSimplify σ (.plus (.fluent e.fluent) e.value)
  | .decrease => subsSimplify σ (.minus (.fluent e.fluent) e.value)

/-- The effect loop of `_get_next_state` (`src/up_skdecide/domain.py:83-100`),
accumulating `new_assignments`.  A conditional effect evaluates its guard
first; `assert ec.is_bool_constant()` failing is modelled as `none`
(an `AssertionError` aborts the call); a false guard skips the effect. -/
def applyEffects (σ : Assignments) : List Effect → Assignments → Option Assignments
  | [], acc => some acc
  | e :: rest, acc =>
    match e.condition with
    | none => applyEffects σ rest (updateOne acc e.fluent (effectResult σ e))
    | some c =>
      let ec := subsSimplify σ c
      if isBoolConstant ec then
        if boolConstantValue ec then
          applyEffects σ rest (updateOne acc e.fluent (effectResult σ e))
        else applyEffects σ rest acc
      else none

/-- The simulated-effect block of `_get_next_state`
(`src/up_skdecide/domain.py:101-106`): the native function's outputs are
zipped with its declared fluents and written into `new_assignments` after
all declarative effects. -/
def applySim (σ acc : Assignments) : Option SimulatedEffect → Assignments
  | none => acc
  | some se => updateA acc (se.fluents.zip (se.function σ))

/-- Result of `up_get_next_state`: the code returns the Python constant
`False` on a violated precondition (a failed-transition signal), raises
`AssertionError` on a non-constant guard, and otherwise returns the new
value list. -/
inductive TResult where
  | failed
  | fatal
  | next (s : List FExpr)
deriving DecidableEq

/-- `DomainImpl._get_next_state` of `src/up_skdecide/domain.py:74-109`.
`keys` is `self._state_dict_keys`, `memory` the positional value list.
The first component models the write to `self._last_error`: the recorded
message names the violated precondition and the action, modelled as the
pair of the two; `none` means this call records no error.  The deletion
loop over `action.parameters` is vacuous since the action is asserted
parameter-free. -/
def up_get_next_state (keys : List Nat) (memory : List FExpr)
    (action : InstantaneousAction) : Option (FExpr × String) × TResult :=
  let assignments := keys.zip memory
  match checkPreconditions assignments action.preconditions with
  | some p => (some (p, action.name), .failed)
  | none =>
    match applyEffects assignments action.effects [] with
    | none => (none, .fatal)
    | some na =>
      let na := applySim assignments na action.simulated_effect
      (none, .next ((updateA assignments na).map Prod.snd))

/-- `DomainImpl._is_terminal` of `src/up_skdecide/domain.py:120-126`: rebuild
the assignment map, return `False` as soon as a goal does not simplify to a
concrete true boolean, `True` otherwise.  The loop is the conjunction below;
the function has no failure path. -/
def up_is_terminal (goals : List FExpr) (keys : List Nat)
    (memory : List FExpr) : Bool :=
  let state := keys.zip memory
  goals.all fun g =>
    let gs := subsSimplify state g
    isBoolConstant gs && boolConstantValue gs

/-- `DomainImpl._get_applicable_actions_from` of
`src/up_skdecide/domain.py:132-144`: keep, in declared order, every grounded
action all of whose preconditions simplify to a concrete true boolean. -/
def up_get_applicable_actions_from (actions : List InstantaneousAction)
    (keys : List Nat) (memory : List FExpr) : List InstantaneousAction :=
  let state := keys.zip memory
  actions.foldl
    (fun acc ai =>
      if ai.preconditions.all (fun p =>
          let ps := subsSimplify state p
          isBoolConstant ps && boolConstantValue ps)
      then acc ++ [ai] else acc) []

/-- The `Value` record of the decision framework as the adapter uses it:
`Value(cost=1)` carries the constant cost 1. -/
structure SkValue where
  cost : Int
deriving DecidableEq

/-- `DomainImpl._get_transition_value` of `src/up_skdecide/domain.py:111-118`:
a `TODO` placeholder returning the constant `Value(cost=1)`, ignoring the
state, the action, the next state and the problem. -/
def up_get_transition_value (_memory : List FExpr)
    (_action : InstantaneousAction) (_next_state : Option (List FExpr)) :
    SkValue :=
  { cost := 1 }

/-- A legacy `ActionInstance` of `src/upf_skdecide/domain.py`: lifted
parameters with their actual objects, plus the action's preconditions and
effects.  Parameter identifiers live in the same key space as fluents since
both are used as dictionary keys. -/
structure UpfActionInstance where
  name : String
  parameters : List Nat
  actual_parameters : List FExpr
  preconditions : List FExpr
  effects : List Effect
deriving DecidableEq

/-- The parameter-binding loop of the legacy `_get_next_state`
(`src/upf_skdecide/domain.py:54-55`): `memory[ap] = oe` for every zipped
parameter, writing into the caller's dictionary. -/
def upf_bind_params (memory : Assignments) (a : UpfActionInstance) :
    Assignments :=
  (a.parameters.zip a.actual_parameters).foldl
    (fun m kv => updateOne m kv.1 kv.2) memory

/-- Python `del d[k]` as used on the copied successor dictionary. -/
def removeA (σ : Assignments) (k : Nat) : Assignments :=
  σ.filter fun kv => kv.1 ≠ k

/-- `DomainImpl._get_next_state` of `src/upf_skdecide/domain.py:49-75`.
There is no precondition check.  The function first writes the parameter
bindings into the caller's `memory` (an in-place mutation), evaluates the
effects against that dictionary, deep-copies it, merges `new_assignments`
over the copy and deletes the parameter bindings from the copy only.  The
result pairs the caller's dictionary as it stands after the call with the
returned successor (`none` models the `AssertionError` of a non-constant
guard). -/
def upf_get_next_state (memory : Assignments) (a : UpfActionInstance) :
    Assignments × Option Assignments :=
  let memory := upf_bind_params memory a
  match applyEffects memory a.effects [] with
  | none => (memory, none)
  | some na =>
    let next := updateA memory na
    let next := a.parameters.foldl (fun m ap => removeA m ap) next
    (memory, some next)

/-- `DomainImpl._get_applicable_actions_from` of
`src/upf_skdecide/domain.py:92-100`: the nested loops append the action once
for every precondition that individually simplifies to a concrete true
boolean. -/
def upf_get_applicable_actions_from (actions : List UpfActionInstance)
    (memory : Assignments) : List UpfActionInstance :=
  actions.foldl
    (fun acc ai =>
      ai.preconditions.foldl
        (fun acc2 p =>
          let ps := subsSimplify memory p
          if isBoolConstant ps && boolConstantValue ps then acc2 ++ [ai]
          else acc2) acc) []

/-- `DomainImpl._get_transition_value` of `src/upf_skdecide/domain.py:77-79`:
the body is `pass`, so the call returns `None` for every input. -/
def upf_get_transition_value (_memory : Assignments)
    (_action : UpfActionInstance) (_next_state : Option Assignments) :
    Option SkValue :=
  none

/-- The last effect of the list that is enabled under `σ` (guard absent or
simplifying to the constant true) and targets fluent `x`.  Analysis helper:
the characterisation theorems show the effect loop realises exactly this
last-enabled-wins, pre-state-evaluated semantics. -/
def findLastEnabled (σ : Assignments) : List Effect → Nat → Option Effect
  | [], _ => none
  | e :: rest, x =>
    match findLastEnabled σ rest x with
    | some e' => some e'
    | none =>
      let en :=
        match e.condition with
        | none => true
        | some c => boolConstantValue (subsSimplify σ c)
      if en && (e.fluent = x) then some e else none

/-! Concrete problem data used to instantiate the theorems. -/

/-- Fluent keys 0 and 1 stand for x and y; the action performs the
assignment effects x := x + 1 and y := x. -/
def exC1Action : InstantaneousAction :=
  { name := "inc_then_copy",
    preconditions := [],
    effects :=
      [{ condition := none, fluent := 0, kind := .assign,
         value := .plus (.fluent 0) (.iconst 1) },
       { condition := none, fluent := 1, kind := .assign,
         value := .fluent 0 }],
    simulated_effect := none }

/-- The same two effects as a legacy parameter-free action instance. -/
def exC1UpfAction : UpfActionInstance :=
  { name := "inc_then_copy",
    parameters := [],
    actual_parameters := [],
    preconditions := [],
    effects :=
      [{ condition := none, fluent := 0, kind := .assign,
         value := .plus (.fluent 0) (.iconst 1) },
       { condition := none, fluent := 1, kind := .assign,
         value := .fluent 0 }] }

/-- An action whose single precondition is the constant false. -/
def exC2Action : InstantaneousAction :=
  { name := "blocked",
    preconditions := [.bconst false],
    effects := [],
    simulated_effect := none }

/-- A legacy action with a violated precondition and an assignment effect:
the legacy transition function applies it regardless. -/
def exC2UpfAction : UpfActionInstance :=
  { name := "blocked",
    parameters := [],
    actual_parameters := [],
    preconditions := [.bconst false],
    effects :=
      [{ condition := none, fluent := 0, kind := .assign,
         value := .bconst true }] }

/-- An action writing only fluent 0, leaving fluent 1 untouched. -/
def exC3Action : InstantaneousAction :=
  { name := "write_first",
    preconditions := [],
    effects :=
      [{ condition := none, fluent := 0, kind := .assign,
         value := .iconst 5 }],
    simulated_effect := none }

/-- A legacy action instance with one parameter (key 7) bound to 3. -/
def exC4UpfAction : UpfActionInstance :=
  { name := "with_param",
    parameters := [7],
    actual_parameters := [.iconst 3],
    preconditions := [],
    effects := [] }

/-- Two individually true preconditions: the legacy applicable-actions loop
appends this action twice. -/
def exC5A1 : UpfActionInstance :=
  { name := "a1",
    parameters := [],
    actual_parameters := [],
    preconditions := [.bconst true, .bconst true],
    effects := [] }

/-- One true and one false precondition: not all preconditions hold, yet the
legacy loop still appends the action once. -/
def exC5A2 : UpfActionInstance :=
  { name := "a2",
    parameters := [],
    actual_parameters := [],
    preconditions := [.bconst true, .bconst false],
    effects := [] }

/-- An effect guarded by the constant-false condition. -/
def exC7GuardedEffect : Effect :=
  { condition := some (.bconst false), fluent := 0, kind := .assign,
    value := .iconst 5 }

/-- An unguarded assignment effect on fluent 1. -/
def exC7NormEffect : Effect :=
  { condition := none, fluent := 1, kind := .assign, value := .iconst 7 }

/-- An action whose first effect is skipped by its false guard. -/
def exC7Action : InstantaneousAction :=
  { name := "guarded",
    preconditions := [],
    effects := [exC7GuardedEffect, exC7NormEffect],
    simulated_effect := none }

/-- An action whose effect guard does not simplify to a boolean constant. -/
def exC7FatalAction : InstantaneousAction :=
  { name := "bad_guard",
    preconditions := [],
    effects :=
      [{ condition := some (.param 0), fluent := 0, kind := .assign,
         value := .iconst 5 }],
    simulated_effect := none }

/-- An increase effect adding the integer 3 to fluent 0. -/
def exC8IncAction : InstantaneousAction :=
  { name := "inc3",
    preconditions := [],
    effects :=
      [{ condition := none, fluent := 0, kind := .increase,
         value := .iconst 3 }],
    simulated_effect := none }

/-- A decrease effect on a rational fluent. -/
def exC8RatDecAction : InstantaneousAction :=
  { name := "dec_rat",
    preconditions := [],
    effects :=
      [{ condition := none, fluent := 0, kind := .decrease,
         value := .qconst (1 / 4) }],
    simulated_effect := none }

/-- A plain assignment effect. -/
def exC8AssignAction : InstantaneousAction :=
  { name := "set7",
    preconditions := [],
    effects :=
      [{ condition := none, fluent := 0, kind := .assign,
         value := .iconst 7 }],
    simulated_effect := none }

/-- A simulated effect writing the constant 4 to fluent 0. -/
def exC10Sim : SimulatedEffect :=
  { fluents := [0], function := fun _ => [.iconst 4] }

/-- A declarative assignment to fluent 0 and a simulated effect on the same
fluent: the simulated value must win. -/
def exC10Action : InstantaneousAction :=
  { name := "sim_override",
    preconditions := [],
    effects :=
      [{ condition := none, fluent := 0, kind := .assign,
         value := .iconst 9 }],
    simulated_effect := some exC10Sim }

/-! Association-list lemmas about the dictionary operations. -/

theorem lookupA_updateOne (σ : Assignments) (k : Nat) (v : FExpr) (x : Nat) :
    lookupA (updateOne σ k v) x = if k = x then some v else lookupA σ x := by
  induction σ with
  | nil => simp [updateOne, lookupA]
  | cons kv rest ih =>
    obtain ⟨k₀, v₀⟩ := kv
    by_cases h : k₀ = k
    · subst h
      by_cases h1 : k₀ = x <;> simp [updateOne, lookupA, h1]
    · simp only [updateOne, if_neg h, lookupA, ih]
      by_cases h1 : k₀ = x
      · subst h1
        have h2 : k ≠ k₀ := fun hh => h hh.symm
        simp [h2]
      · simp [h1]

theorem hasKey_eq_mem (σ : Assignments) (x : Nat) :
    hasKey σ x = true ↔ x ∈ σ.map Prod.fst := by
  induction σ with
  | nil => simp [hasKey]
  | cons kv rest ih =>
    obtain ⟨k₀, v₀⟩ := kv
    by_cases h : k₀ = x
    · subst h
      simp [hasKey]
    · simp [hasKey, h, ih, Ne.symm h]

theorem hasKey_updateOne (σ : Assignments) (k : Nat) (v : FExpr) (x : Nat) :
    hasKey (updateOne σ k v) x = ((k = x : Bool) || hasKey σ x) := by
  induction σ with
  | nil => simp [updateOne, hasKey]
  | cons kv rest ih =>
    obtain ⟨k₀, v₀⟩ := kv
    by_cases h : k₀ = k
    · subst h
      by_cases h1 : k₀ = x
      · subst h1
        simp [updateOne, hasKey]
      · simp [updateOne, hasKey, h1]
    · by_cases h1 : k₀ = x
      · subst h1
        simp [updateOne, h, hasKey]
      · simp [updateOne, h, hasKey, h1, ih]

theorem keys_updateOne_eq (σ : Assignments) (k : Nat) (v : FExpr) :
    (updateOne σ k v).map Prod.fst =
      if hasKey σ k then σ.map Prod.fst else σ.map Prod.fst ++ [k] := by
  induction σ with
  | nil => simp [updateOne, hasKey]
  | cons kv rest ih =>
    obtain ⟨k₀, v₀⟩ := kv
    by_cases h : k₀ = k
    · subst h
      simp [updateOne, hasKey]
    · simp only [updateOne, if_neg h, hasKey, List.map_cons, ih]
      by_cases h1 : hasKey rest k
      · simp [h, h1]
      · simp [h, h1]

theorem nodupKeys_updateOne (σ : Assignments) (k : Nat) (v : FExpr)
    (hnd : (σ.map Prod.fst).Nodup) :
    ((updateOne σ k v).map Prod.fst).Nodup := by
  rw [keys_updateOne_eq]
  by_cases h : hasKey σ k
  · simpa [h] using hnd
  · have hk : k ∉ σ.map Prod.fst := fun hm => h ((hasKey_eq_mem σ k).mpr hm)
    simp only [h, if_neg]
    simp [List.nodup_append, hnd, hk]

theorem lookupA_eq_none (σ : Assignments) (x : Nat)
    (h : hasKey σ x = false) : lookupA σ x = none := by
  induction σ with
  | nil => simp [lookupA]
  | cons kv rest ih =>
    obtain ⟨k₀, v₀⟩ := kv
    by_cases h1 : k₀ = x
    · subst h1
      simp [hasKey] at h
    · simp only [hasKey, if_neg h1] at h
      simp [lookupA, h1, ih h]

theorem lookupLast_eq_none (σ : Assignments) (x : Nat)
    (h : hasKey σ x = false) : lookupLast σ x = none := by
  induction σ with
  | nil => simp [lookupLast]
  | cons kv rest ih =>
    obtain ⟨k₀, v₀⟩ := kv
    by_cases h1 : k₀ = x
    · subst h1
      simp [hasKey] at h
    · simp only [hasKey, if_neg h1] at h
      simp [lookupLast, h1, ih h]

theorem lookupLast_eq_lookupA (σ : Assignments) (x : Nat)
    (hnd : (σ.map Prod.fst).Nodup) : lookupLast σ x = lookupA σ x := by
  induction σ with
  | nil => simp [lookupLast, lookupA]
  | cons kv rest ih =>
    obtain ⟨k₀, v₀⟩ := kv
    simp only [List.map_cons, List.nodup_cons] at hnd
    by_cases h1 : k₀ = x
    · subst h1
      have hk : hasKey rest k₀ = false := by
        by_contra hc
        exact hnd.1 ((hasKey_eq_mem rest k₀).mp (by revert hc; cases hasKey rest k₀ <;> simp))
      simp [lookupLast, lookupA, lookupLast_eq_none rest k₀ hk]
    · simp [lookupLast, lookupA, h1, ← ih hnd.2]
      cases lookupLast rest x <;> simp [h1]

theorem lookupA_updateA (σ ν : Assignments) (x : Nat) :
    lookupA (updateA σ ν) x =
      match lookupLast ν x with
      | some w => some w
      | none => lookupA σ x := by
  induction ν generalizing σ with
  | nil => simp [updateA, lookupLast]
  | cons kv rest ih =>
    obtain ⟨k, v⟩ := kv
    have step : updateA σ ((k, v) :: rest) = updateA (updateOne σ k v) rest := rfl
    rw [step, ih]
    cases hrest : lookupLast rest x with
    | some w => simp [lookupLast, hrest]
    | none =>
      simp only [lookupLast, hrest, lookupA_updateOne]
      by_cases h : k = x <;> simp [h]

theorem hasKey_updateA (σ ν : Assignments) (x : Nat)
    (h : hasKey (updateA σ ν) x = true) :
    hasKey σ x = true ∨ hasKey ν x = true := by
  induction ν generalizing σ with
  | nil => exact Or.inl h
  | cons kv rest ih =>
    obtain ⟨k, v⟩ := kv
    have step : updateA σ ((k, v) :: rest) = updateA (updateOne σ k v) rest := rfl
    rw [step] at h
    rcases ih (updateOne σ k v) h with h1 | h1
    · rw [hasKey_updateOne] at h1
      rcases Bool.or_eq_true_iff.mp h1 with h2 | h2
      · refine Or.inr ?_
        have : k = x := by simpa using h2
        simp [hasKey, this]
      · exact Or.inl h2
    · refine Or.inr ?_
      by_cases hk : k = x <;> simp [hasKey, hk, h1]

theorem keys_updateA (σ ν : Assignments)
    (h : ∀ x, hasKey ν x = true → hasKey σ x = true) :
    (updateA σ ν).map Prod.fst = σ.map Prod.fst := by
  induction ν generalizing σ with
  | nil => rfl
  | cons kv rest ih =>
    obtain ⟨k, v⟩ := kv
    have step : updateA σ ((k, v) :: rest) = updateA (updateOne σ k v) rest := rfl
    have hk : hasKey σ k = true := h k (by simp [hasKey])
    rw [step, ih (updateOne σ k v) ?_, keys_updateOne_eq, if_pos hk]
    intro x hx
    rw [hasKey_updateOne]
    have : hasKey ((k, v) :: rest) x = true := by
      by_cases h1 : k = x <;> simp [hasKey, h1, hx]
    simp [h x this]

theorem nodupKeys_updateA (σ ν : Assignments)
    (hnd : (σ.map Prod.fst).Nodup) : ((updateA σ ν).map Prod.fst).Nodup := by
  induction ν generalizing σ with
  | nil => exact hnd
  | cons kv rest ih =>
    exact ih (updateOne σ kv.1 kv.2) (nodupKeys_updateOne σ kv.1 kv.2 hnd)

theorem lookupA_of_get? (σ : Assignments) (i : Nat) (k : Nat) (w : FExpr)
    (hnd : (σ.map Prod.fst).Nodup) (h : σ.get? i = some (k, w)) :
    lookupA σ k = some w := by
  induction σ generalizing i with
  | nil => simp at h
  | cons kv rest ih =>
    obtain ⟨k₀, v₀⟩ := kv
    simp only [List.map_cons, List.nodup_cons] at hnd
    cases i with
    | zero =>
      simp only [List.get?, Option.some.injEq, Prod.mk.injEq] at h
      obtain ⟨hk, hv⟩ := h
      subst hk
      subst hv
      simp [lookupA]
    | succ j =>
      simp only [List.get?] at h
      have hkm : (k, w) ∈ rest := List.get?_mem h
      have hk0 : k₀ ≠ k := by
        intro hc
        subst hc
        exact hnd.1 (List.mem_map.mpr ⟨(k₀, w), hkm, rfl⟩)
      simp [lookupA, hk0, ih j hnd.2 h]

theorem zip_get?_eq (keys : List Nat) (memory : List FExpr) (i : Nat)
    (k : Nat) (v : FExpr) (hk : keys.get? i = some k)
    (hv : memory.get? i = some v) :
    (keys.zip memory).get? i = some (k, v) := by
  induction keys generalizing memory i with
  | nil => simp at hk
  | cons k₀ krest ih =>
    cases memory with
    | nil => simp at hv
    | cons v₀ vrest =>
      cases i with
      | zero =>
        simp only [List.get?] at hk hv
        cases hk
        cases hv
        rfl
      | succ j =>
        simp only [List.get?] at hk hv ⊢
        exact ih vrest j hk hv

theorem hasKey_zip_mem (a : List Nat) (b : List FExpr) (x : Nat)
    (h : hasKey (a.zip b) x = true) : x ∈ a := by
  induction a generalizing b with
  | nil => simp [hasKey] at h
  | cons k arest ih =>
    cases b with
    | nil => simp [hasKey] at h
    | cons v brest =>
      by_cases h1 : k = x
      · simp [h1]
      · simp only [List.zip_cons_cons, hasKey, if_neg h1] at h
        exact List.mem_cons_of_mem _ (ih brest h)

/-! Lemmas about the precondition loop and the effect loop. -/

theorem checkPreconditions_none_iff (σ : Assignments) (ps : List FExpr) :
    checkPreconditions σ ps = none ↔
      ∀ p ∈ ps, (isBoolConstant (subsSimplify σ p) &&
        boolConstantValue (subsSimplify σ p)) = true := by
  induction ps with
  | nil => simp [checkPreconditions]
  | cons p rest ih =>
    by_cases hb : (isBoolConstant (subsSimplify σ p) &&
        boolConstantValue (subsSimplify σ p)) = true
    · constructor
      · intro h q hq
        rcases List.mem_cons.mp hq with h1 | h1
        · subst h1
          exact hb
        · refine (ih.mp ?_) q h1
          simpa [checkPreconditions, hb] using h
      · intro h
        simp only [checkPreconditions, hb, if_true]
        exact ih.mpr fun q hq => h q (List.mem_cons_of_mem _ hq)
    · constructor
      · intro h
        exfalso
        simp [checkPreconditions, hb] at h
      · intro h
        exact absurd (h p (List.mem_cons_self _ _)) hb

theorem checkPreconditions_some (σ : Assignments) (ps : List FExpr)
    (p' : FExpr) (h : checkPreconditions σ ps = some p') :
    p' ∈ ps ∧ (isBoolConstant (subsSimplify σ p') &&
      boolConstantValue (subsSimplify σ p')) = false := by
  induction ps with
  | nil => simp [checkPreconditions] at h
  | cons p rest ih =>
    by_cases hb : (isBoolConstant (subsSimplify σ p) &&
        boolConstantValue (subsSimplify σ p)) = true
    · simp only [checkPreconditions, hb, if_true] at h
      obtain ⟨hm, hf⟩ := ih h
      exact ⟨List.mem_cons_of_mem _ hm, hf⟩
    · simp only [checkPreconditions, hb, if_false] at h
      cases h
      exact ⟨List.mem_cons_self _ _, Bool.eq_false_iff.mpr hb⟩

theorem applyEffects_append (σ : Assignments) (l1 l2 : List Effect)
    (acc : Assignments) :
    applyEffects σ (l1 ++ l2) acc =
      match applyEffects σ l1 acc with
      | some acc' => applyEffects σ l2 acc'
      | none => none := by
  induction l1 generalizing acc with
  | nil => simp [applyEffects]
  | cons e rest ih =>
    cases hc : e.condition with
    | none =>
      simp only [List.cons_append, applyEffects, hc, List.append_eq]
      exact ih _
    | some c =>
      simp only [List.cons_append, applyEffects, hc]
      by_cases hb : isBoolConstant (subsSimplify σ c)
      · by_cases hv : boolConstantValue (subsSimplify σ c) <;>
          simp [hb, hv, ih]
      · simp [Bool.eq_false_iff.mpr hb]

theorem hasKey_applyEffects (σ : Assignments) (Es : List Effect)
    (acc out : Assignments) (h : applyEffects σ Es acc = some out) (x : Nat)
    (hx : hasKey out x = true) :
    hasKey acc x = true ∨ x ∈ Es.map (fun e => e.fluent) := by
  induction Es generalizing acc with
  | nil =>
    simp only [applyEffects, Option.some.injEq] at h
    subst h
    exact Or.inl hx
  | cons e rest ih =>
    cases hc : e.condition with
    | none =>
      simp only [applyEffects, hc] at h
      rcases ih _ h with h1 | h1
      · rw [hasKey_updateOne] at h1
        rcases Bool.or_eq_true_iff.mp h1 with h2 | h2
        · right
          have : e.fluent = x := by simpa using h2
          simp [this]
        · exact Or.inl h2
      · right
        simp [h1]
    | some c =>
      simp only [applyEffects, hc] at h
      by_cases hb : isBoolConstant (subsSimplify σ c)
      · by_cases hv : boolConstantValue (subsSimplify σ c)
        · simp only [hb, hv, if_true] at h
          rcases ih _ h with h1 | h1
          · rw [hasKey_updateOne] at h1
            rcases Bool.or_eq_true_iff.mp h1 with h2 | h2
            · right
              have : e.fluent = x := by simpa using h2
              simp [this]
            · exact Or.inl h2
          · right
            simp [h1]
        · simp only [hb, Bool.eq_false_iff.mpr hv, if_true, if_false] at h
          rcases ih _ h with h1 | h1
          · exact Or.inl h1
          · right
            simp [h1]
      · simp [Bool.eq_false_iff.mpr hb] at h

theorem nodupKeys_applyEffects (σ : Assignments) (Es : List Effect)
    (acc out : Assignments) (hnd : (acc.map Prod.fst).Nodup)
    (h : applyEffects σ Es acc = some out) : (out.map Prod.fst).Nodup := by
  induction Es generalizing acc with
  | nil =>
    simp only [applyEffects, Option.some.injEq] at h
    subst h
    exact hnd
  | cons e rest ih =>
    cases hc : e.condition with
    | none =>
      simp only [applyEffects, hc] at h
      exact ih _ (nodupKeys_updateOne _ _ _ hnd) h
    | some c =>
      simp only [applyEffects, hc] at h
      by_cases hb : isBoolConstant (subsSimplify σ c)
      · by_cases hv : boolConstantValue (subsSimplify σ c)
        · simp only [hb, hv, if_true] at h
          exact ih _ (nodupKeys_updateOne _ _ _ hnd) h
        · simp only [hb, Bool.eq_false_iff.mpr hv, if_true, if_false] at h
          exact ih _ hnd h
      · simp [Bool.eq_false_iff.mpr hb] at h

theorem lookupA_applyEffects (σ : Assignments) (Es : List Effect)
    (acc out : Assignments) (h : applyEffects σ Es acc = some out) (x : Nat) :
    lookupA out x =
      match findLastEnabled σ Es x with
      | some e => some (effectResult σ e)
      | none => lookupA acc x := by
  induction Es generalizing acc with
  | nil =>
    simp only [applyEffects, Option.some.injEq] at h
    subst h
    simp [findLastEnabled]
  | cons e rest ih =>
    cases hc : e.condition with
    | none =>
      simp only [applyEffects, hc] at h
      rw [ih _ h]
      cases hf : findLastEnabled σ rest x with
      | some e' => simp [findLastEnabled, hf]
      | none =>
        simp only [findLastEnabled, hf, hc, lookupA_updateOne]
        by_cases hfl : e.fluent = x <;> simp [hfl]
    | some c =>
      simp only [applyEffects, hc] at h
      by_cases hb : isBoolConstant (subsSimplify σ c)
      · by_cases hv : boolConstantValue (subsSimplify σ c)
        · simp only [hb, hv, if_true] at h
          rw [ih _ h]
          cases hf : findLastEnabled σ rest x with
          | some e' => simp [findLastEnabled, hf]
          | none =>
            simp only [findLastEnabled, hf, hc, hv, lookupA_updateOne]
            by_cases hfl : e.fluent = x <;> simp [hfl]
        · simp only [hb, Bool.eq_false_iff.mpr hv, if_true, if_false] at h
          rw [ih _ h]
          cases hf : findLastEnabled σ rest x with
          | some e' => simp [findLastEnabled, hf]
          | none =>
            simp [findLastEnabled, hf, hc, Bool.eq_false_iff.mpr hv]
      · simp [Bool.eq_false_iff.mpr hb] at h

/-- Central characterisation of a successful `_get_next_state` call: the
returned value list is positionally aligned to the key sequence, and the
value at each key is the last write of `new_assignments` for that key, the
prior value when the key was not written. -/
theorem up_next_state_get? (keys : List Nat) (memory : List FExpr)
    (a : InstantaneousAction) (ν : Assignments)
    (hnd : keys.Nodup) (hlen : memory.length = keys.length)
    (hpre : checkPreconditions (keys.zip memory) a.preconditions = none)
    (heff : applyEffects (keys.zip memory) a.effects [] = some ν)
    (hkeys : ∀ x,
      hasKey (applySim (keys.zip memory) ν a.simulated_effect) x = true →
      x ∈ keys) :
    ∃ s', up_get_next_state keys memory a = (none, .next s') ∧
      s'.length = keys.length ∧
      ∀ i k v, keys.get? i = some k → memory.get? i = some v →
        s'.get? i = some
          ((lookupLast (applySim (keys.zip memory) ν a.simulated_effect)
            k).getD v) := by
  have hmapfst : (keys.zip memory).map Prod.fst = keys :=
    List.map_fst_zip keys memory (le_of_eq hlen.symm)
  have hσnd : ((keys.zip memory).map Prod.fst).Nodup := by
    rw [hmapfst]
    exact hnd
  have hhk : ∀ x,
      hasKey (applySim (keys.zip memory) ν a.simulated_effect) x = true →
      hasKey (keys.zip memory) x = true := by
    intro x hx
    rw [hasKey_eq_mem, hmapfst]
    exact hkeys x hx
  have hτ : ((updateA (keys.zip memory)
      (applySim (keys.zip memory) ν a.simulated_effect)).map Prod.fst) =
      keys := by
    rw [keys_updateA _ _ hhk, hmapfst]
  have hτnd : ((updateA (keys.zip memory)
      (applySim (keys.zip memory) ν a.simulated_effect)).map Prod.fst).Nodup := by
    rw [hτ]
    exact hnd
  refine ⟨(updateA (keys.zip memory)
    (applySim (keys.zip memory) ν a.simulated_effect)).map Prod.snd,
    ?_, ?_, ?_⟩
  · simp [up_get_next_state, hpre, heff]
  · have hl := congrArg List.length hτ
    simpa using hl
  · intro i k v hk hv
    have hkeq : ((updateA (keys.zip memory)
        (applySim (keys.zip memory) ν a.simulated_effect)).map
          Prod.fst).get? i = some k := by
      rw [hτ]
      exact hk
    rw [List.get?_map] at hkeq
    obtain ⟨kv, hkv, hfst⟩ := Option.map_eq_some'.mp hkeq
    obtain ⟨k', w⟩ := kv
    cases hfst
    have hlk : lookupA (updateA (keys.zip memory)
        (applySim (keys.zip memory) ν a.simulated_effect)) k' = some w :=
      lookupA_of_get? _ i k' w hτnd hkv
    have hzip : (keys.zip memory).get? i = some (k', v) :=
      zip_get?_eq keys memory i k' v hk hv
    have hσ0lk : lookupA (keys.zip memory) k' = some v :=
      lookupA_of_get? _ i k' v hσnd hzip
    have hF2 := lookupA_updateA (keys.zip memory)
      (applySim (keys.zip memory) ν a.simulated_effect) k'
    rw [hlk, hσ0lk] at hF2
    have hs : ((updateA (keys.zip memory)
        (applySim (keys.zip memory) ν a.simulated_effect)).map
          Prod.snd).get? i = some w := by
      rw [List.get?_map, hkv]
      rfl
    rw [hs]
    cases hll : lookupLast (applySim (keys.zip memory) ν
        a.simulated_effect) k' with
    | some u =>
      rw [hll] at hF2
      simp only [Option.getD]
      exact hF2
    | none =>
      rw [hll] at hF2
      simp only [Option.getD]
      exact hF2

/-! Claim theorems. -/

/-- C1: in `_get_next_state` of both adapter versions every effect is
evaluated against the pre-transition assignment map only.  On a successful
call the successor's value for a key is the pre-state evaluation of the last
enabled effect targeting it (the prior value when no enabled effect does),
so no effect's guard or value observes another effect's result.  In
particular an action with effects x := x + 1 and y := x maps the state
x = 1, y = 0 to x = 2, y = 1. -/
theorem c1_effects_evaluated_against_pre_state :
    (∀ (keys : List Nat) (memory : List FExpr) (a : InstantaneousAction)
      (ν : Assignments),
      keys.Nodup → memory.length = keys.length →
      checkPreconditions (keys.zip memory) a.preconditions = none →
      applyEffects (keys.zip memory) a.effects [] = some ν →
      a.simulated_effect = none →
      (∀ e ∈ a.effects, e.fluent ∈ keys) →
      ∃ s', up_get_next_state keys memory a = (none, .next s') ∧
        s'.length = keys.length ∧
        ∀ i k v, keys.get? i = some k → memory.get? i = some v →
          s'.get? i = some
            (match findLastEnabled (keys.zip memory) a.effects k with
             | some e => effectResult (keys.zip memory) e
             | none => v)) ∧
    (∀ (memory : Assignments) (a : UpfActionInstance) (ν : Assignments),
      a.parameters = [] →
      applyEffects memory a.effects [] = some ν →
      ∃ nxt, upf_get_next_state memory a = (memory, some nxt) ∧
        ∀ x, lookupA nxt x =
          match findLastEnabled memory a.effects x with
          | some e => some (effectResult memory e)
          | none => lookupA memory x) := by
  constructor
  · intro keys memory a ν hnd hlen hpre heff hsim htargets
    have hk : ∀ x,
        hasKey (applySim (keys.zip memory) ν a.simulated_effect) x = true →
        x ∈ keys := by
      intro x hx
      rw [hsim] at hx
      have hx' : hasKey ν x = true := hx
      rcases hasKey_applyEffects _ _ [] ν heff x hx' with h1 | h1
      · simp [hasKey] at h1
      · obtain ⟨e, he, hef⟩ := List.mem_map.mp h1
        exact hef ▸ htargets e he
    obtain ⟨s', h1, h2, h3⟩ :=
      up_next_state_get? keys memory a ν hnd hlen hpre heff hk
    refine ⟨s', h1, h2, ?_⟩
    intro i k v hki hvi
    have h4 := h3 i k v hki hvi
    rw [hsim] at h4
    have hν : applySim (keys.zip memory) ν none = ν := rfl
    rw [hν] at h4
    have hnodν : (ν.map Prod.fst).Nodup :=
      nodupKeys_applyEffects _ _ [] ν (by simp) heff
    rw [lookupLast_eq_lookupA ν k hnodν,
      lookupA_applyEffects _ _ [] ν heff k] at h4
    cases hf : findLastEnabled (keys.zip memory) a.effects k with
    | some e =>
      rw [hf] at h4
      simpa using h4
    | none =>
      rw [hf] at h4
      simpa [lookupA] using h4
  · intro memory a ν hpar heff
    have hbind : upf_bind_params memory a = memory := by
      simp [upf_bind_params, hpar]
    refine ⟨updateA memory ν, ?_, ?_⟩
    · simp [upf_get_next_state, hbind, heff, hpar]
    · intro x
      rw [lookupA_updateA]
      have hnodν : (ν.map Prod.fst).Nodup :=
        nodupKeys_applyEffects _ _ [] ν (by simp) heff
      rw [lookupLast_eq_lookupA ν x hnodν,
        lookupA_applyEffects _ _ [] ν heff x]
      cases findLastEnabled memory a.effects x <;> simp [lookupA]

/-- Witness for C1: both conjuncts applied to the spec's x/y example; the
new adapter yields the value list x = 2, y = 1 (not y = 2). -/
theorem c1_witness :
    (∃ s', up_get_next_state [0, 1] [FExpr.iconst 1, FExpr.iconst 0]
        exC1Action = (none, .next s') ∧ s'.length = 2 ∧
        ∀ i k v, [0, 1].get? i = some k →
          [FExpr.iconst 1, FExpr.iconst 0].get? i = some v →
          s'.get? i = some
            (match findLastEnabled
                ([0, 1].zip [FExpr.iconst 1, FExpr.iconst 0])
                exC1Action.effects k with
             | some e =>
               effectResult ([0, 1].zip [FExpr.iconst 1, FExpr.iconst 0]) e
             | none => v)) ∧
    up_get_next_state [0, 1] [FExpr.iconst 1, FExpr.iconst 0] exC1Action =
      (none, .next [FExpr.iconst 2, FExpr.iconst 1]) ∧
    (∃ nxt, upf_get_next_state [(0, FExpr.iconst 1), (1, FExpr.iconst 0)]
        exC1UpfAction =
        ([(0, FExpr.iconst 1), (1, FExpr.iconst 0)], some nxt) ∧
        ∀ x, lookupA nxt x =
          match findLastEnabled [(0, FExpr.iconst 1), (1, FExpr.iconst 0)]
              exC1UpfAction.effects x with
          | some e =>
            some (effectResult [(0, FExpr.iconst 1), (1, FExpr.iconst 0)] e)
          | none => lookupA [(0, FExpr.iconst 1), (1, FExpr.iconst 0)] x) :=
  ⟨c1_effects_evaluated_against_pre_state.1 [0, 1]
      [FExpr.iconst 1, FExpr.iconst 0] exC1Action
      [(0, FExpr.iconst 2), (1, FExpr.iconst 1)] (by decide) rfl rfl rfl rfl
      (by decide),
   by decide,
   c1_effects_evaluated_against_pre_state.2
      [(0, FExpr.iconst 1), (1, FExpr.iconst 0)] exC1UpfAction
      [(0, FExpr.iconst 2), (1, FExpr.iconst 1)] rfl rfl⟩

/-- C2 (amended): in the current adapter (`src/up_skdecide/domain.py`), when
some precondition does not simplify to a concrete true value, the call
records a violated precondition together with the action as the domain's
last error, returns the failed-transition signal, and never returns a
successor state.  (The legacy adapter's `_get_next_state` performs no
precondition check at all; see the counterexample.) -/
theorem c2_up_precondition_failure (keys : List Nat) (memory : List FExpr)
    (a : InstantaneousAction)
    (h : ∃ p ∈ a.preconditions,
      (isBoolConstant (subsSimplify (keys.zip memory) p) &&
       boolConstantValue (subsSimplify (keys.zip memory) p)) = false) :
    ∃ p', p' ∈ a.preconditions ∧
      (isBoolConstant (subsSimplify (keys.zip memory) p') &&
       boolConstantValue (subsSimplify (keys.zip memory) p')) = false ∧
      up_get_next_state keys memory a = (some (p', a.name), .failed) ∧
      ∀ s', up_get_next_state keys memory a ≠ (none, .next s') := by
  cases hc : checkPreconditions (keys.zip memory) a.preconditions with
  | none =>
    exfalso
    obtain ⟨p, hp, hf⟩ := h
    have := (checkPreconditions_none_iff _ _).mp hc p hp
    rw [this] at hf
    exact Bool.noConfusion hf
  | some p' =>
    obtain ⟨hm, hf⟩ := checkPreconditions_some _ _ p' hc
    refine ⟨p', hm, hf, ?_, ?_⟩
    · simp [up_get_next_state, hc]
    · intro s' hcontra
      simp [up_get_next_state, hc] at hcontra

/-- Witness for C2: the action with the constant-false precondition is
rejected with the failed signal and the recorded error. -/
theorem c2_witness :
    ∃ p', p' ∈ exC2Action.preconditions ∧
      (isBoolConstant (subsSimplify ([0].zip [FExpr.iconst 1]) p') &&
       boolConstantValue (subsSimplify ([0].zip [FExpr.iconst 1]) p')) =
        false ∧
      up_get_next_state [0] [FExpr.iconst 1] exC2Action =
        (some (p', exC2Action.name), .failed) ∧
      ∀ s', up_get_next_state [0] [FExpr.iconst 1] exC2Action ≠
        (none, .next s') :=
  c2_up_precondition_failure [0] [FExpr.iconst 1] exC2Action
    ⟨.bconst false, by decide, by decide⟩

/-- Counterexample for C2 as stated: in the legacy adapter
(`src/upf_skdecide/domain.py`) `_get_next_state` checks no precondition.
The action's only precondition simplifies to a non-true constant, yet the
call returns a successor state instead of failing. -/
theorem c2_counterexample :
    (isBoolConstant (subsSimplify [(0, FExpr.bconst false)]
        (FExpr.bconst false)) &&
     boolConstantValue (subsSimplify [(0, FExpr.bconst false)]
        (FExpr.bconst false))) = false ∧
    exC2UpfAction.preconditions = [FExpr.bconst false] ∧
    (upf_get_next_state [(0, FExpr.bconst false)] exC2UpfAction).2 =
      some [(0, FExpr.bconst true)] := by decide

/-- C3: a successful `_get_next_state` call produces a state with exactly
the predecessor's fluent-key sequence — the merged assignment dictionary
lists the same keys in the same order, so the returned value list has the
predecessor's length and alignment — and every key not targeted by a
declarative effect or by the simulated effect keeps its predecessor
value. -/
theorem c3_key_sequence_preserved (keys : List Nat) (memory : List FExpr)
    (a : InstantaneousAction) (ν : Assignments)
    (hnd : keys.Nodup) (hlen : memory.length = keys.length)
    (hpre : checkPreconditions (keys.zip memory) a.preconditions = none)
    (heff : applyEffects (keys.zip memory) a.effects [] = some ν)
    (htargets : ∀ e ∈ a.effects, e.fluent ∈ keys)
    (hsimk : ∀ se, a.simulated_effect = some se → ∀ x ∈ se.fluents, x ∈ keys) :
    ∃ s', up_get_next_state keys memory a = (none, .next s') ∧
      s'.length = memory.length ∧
      (updateA (keys.zip memory)
        (applySim (keys.zip memory) ν a.simulated_effect)).map Prod.fst =
        keys ∧
      ∀ i k v, keys.get? i = some k → memory.get? i = some v →
        findLastEnabled (keys.zip memory) a.effects k = none →
        (∀ se, a.simulated_effect = some se → k ∉ se.fluents) →
        s'.get? i = some v := by
  have hνk : ∀ x, hasKey ν x = true → x ∈ keys := by
    intro x hx
    rcases hasKey_applyEffects _ _ [] ν heff x hx with h1 | h1
    · simp [hasKey] at h1
    · obtain ⟨e, he, hef⟩ := List.mem_map.mp h1
      exact hef ▸ htargets e he
  have hk : ∀ x,
      hasKey (applySim (keys.zip memory) ν a.simulated_effect) x = true →
      x ∈ keys := by
    intro x hx
    cases hs : a.simulated_effect with
    | none =>
      rw [hs] at hx
      exact hνk x hx
    | some se =>
      rw [hs] at hx
      rcases hasKey_updateA _ _ x hx with h1 | h1
      · exact hνk x h1
      · exact hsimk se hs x (hasKey_zip_mem _ _ x h1)
  obtain ⟨s', h1, h2, h3⟩ :=
    up_next_state_get? keys memory a ν hnd hlen hpre heff hk
  have hmapfst : (keys.zip memory).map Prod.fst = keys :=
    List.map_fst_zip keys memory (le_of_eq hlen.symm)
  refine ⟨s', h1, by rw [h2, hlen], ?_, ?_⟩
  · rw [keys_updateA, hmapfst]
    intro x hx
    rw [hasKey_eq_mem, hmapfst]
    exact hk x hx
  · intro i k v hki hvi hne hns
    have h4 := h3 i k v hki hvi
    have hνnd : (ν.map Prod.fst).Nodup :=
      nodupKeys_applyEffects _ _ [] ν (by simp) heff
    have hνA : lookupA ν k = none := by
      rw [lookupA_applyEffects _ _ [] ν heff k, hne]
      simp [lookupA]
    cases hs : a.simulated_effect with
    | none =>
      rw [hs] at h4
      rw [show applySim (keys.zip memory) ν none = ν from rfl] at h4
      rw [lookupLast_eq_lookupA ν k hνnd, hνA] at h4
      simpa using h4
    | some se =>
      rw [hs] at h4
      have hA : applySim (keys.zip memory) ν (some se) =
          updateA ν (se.fluents.zip (se.function (keys.zip memory))) := rfl
      have hp : hasKey (se.fluents.zip
          (se.function (keys.zip memory))) k = false := by
        cases hc2 : hasKey (se.fluents.zip
            (se.function (keys.zip memory))) k with
        | false => rfl
        | true => exact absurd (hasKey_zip_mem _ _ k hc2) (hns se hs)
      have hnone : lookupLast (applySim (keys.zip memory) ν (some se)) k =
          none := by
        rw [hA, lookupLast_eq_lookupA _ k (nodupKeys_updateA _ _ hνnd),
          lookupA_updateA, lookupLast_eq_none _ _ hp, hνA]
      rw [hnone] at h4
      simpa using h4

/-- Witness for C3: writing fluent 0 keeps the untouched fluent 1 at its
prior value and preserves the two-entry key sequence. -/
theorem c3_witness :
    ∃ s', up_get_next_state [0, 1] [FExpr.iconst 1, FExpr.iconst 2]
        exC3Action = (none, .next s') ∧
      s'.length = 2 ∧
      (updateA ([0, 1].zip [FExpr.iconst 1, FExpr.iconst 2])
        (applySim ([0, 1].zip [FExpr.iconst 1, FExpr.iconst 2])
          [(0, FExpr.iconst 5)] exC3Action.simulated_effect)).map Prod.fst =
        [0, 1] ∧
      ∀ i k v, [0, 1].get? i = some k →
        [FExpr.iconst 1, FExpr.iconst 2].get? i = some v →
        findLastEnabled ([0, 1].zip [FExpr.iconst 1, FExpr.iconst 2])
          exC3Action.effects k = none →
        (∀ se, exC3Action.simulated_effect = some se → k ∉ se.fluents) →
        s'.get? i = some v :=
  c3_key_sequence_preserved [0, 1] [FExpr.iconst 1, FExpr.iconst 2]
    exC3Action [(0, FExpr.iconst 5)] (by decide) rfl rfl rfl (by decide)
    (fun se hse => by cases hse)

/-- C4 (amended): the legacy `_get_next_state` mutates the caller's state
exactly by writing the action's parameter bindings into it: after the call
the input dictionary equals the parameter-bound dictionary, it is unchanged
for a parameter-free action, and every key outside the parameter list keeps
its binding.  (Effect updates go to a fresh copy, never to the input; the
counterexample shows a parameterised action does mutate the input, refuting
the claim as stated.) -/
theorem c4_input_state_mutation (memory : Assignments)
    (a : UpfActionInstance) :
    (upf_get_next_state memory a).1 = upf_bind_params memory a ∧
    (a.parameters = [] → (upf_get_next_state memory a).1 = memory) ∧
    ∀ x, x ∉ a.parameters →
      lookupA ((upf_get_next_state memory a).1) x = lookupA memory x := by
  have h1 : (upf_get_next_state memory a).1 = upf_bind_params memory a := by
    simp only [upf_get_next_state]
    cases applyEffects (upf_bind_params memory a) a.effects [] <;> rfl
  refine ⟨h1, ?_, ?_⟩
  · intro hp
    rw [h1]
    simp [upf_bind_params, hp]
  · intro x hx
    rw [h1]
    have hb : upf_bind_params memory a =
        updateA memory (a.parameters.zip a.actual_parameters) := rfl
    rw [hb, lookupA_updateA]
    have hnk : hasKey (a.parameters.zip a.actual_parameters) x = false := by
      cases hc : hasKey (a.parameters.zip a.actual_parameters) x with
      | false => rfl
      | true => exact absurd (hasKey_zip_mem _ _ x hc) hx
    rw [lookupLast_eq_none _ _ hnk]

/-- Witness for C4: a parameter-free legacy action leaves the input state
unchanged, and a non-parameter key keeps its binding even for the
parameterised action. -/
theorem c4_witness :
    (upf_get_next_state [(0, FExpr.bconst true)] exC1UpfAction).1 =
      [(0, FExpr.bconst true)] ∧
    lookupA ((upf_get_next_state [(0, FExpr.iconst 1)] exC4UpfAction).1) 0 =
      lookupA [(0, FExpr.iconst 1)] 0 :=
  ⟨(c4_input_state_mutation [(0, FExpr.bconst true)] exC1UpfAction).2.1 rfl,
   (c4_input_state_mutation [(0, FExpr.iconst 1)] exC4UpfAction).2.2 0
     (by decide)⟩

/-- Counterexample for C4 as stated: the legacy `_get_next_state` writes the
parameter binding 7 := 3 into the caller's dictionary, so the input state is
mutated in place. -/
theorem c4_counterexample :
    exC4UpfAction.parameters = [7] ∧
    (upf_get_next_state [(0, FExpr.iconst 1)] exC4UpfAction).1 =
      [(0, FExpr.iconst 1), (7, FExpr.iconst 3)] ∧
    (upf_get_next_state [(0, FExpr.iconst 1)] exC4UpfAction).1 ≠
      [(0, FExpr.iconst 1)] := by decide

/-- C5 (code bug): the legacy `_get_applicable_actions_from` appends an
action once per individually satisfied precondition instead of filtering on
the whole precondition set: an action with two true preconditions is
returned twice, and an action with a violated precondition is still
returned.  (The current adapter fixed exactly this with an
all-preconditions flag.) -/
theorem c5_upf_applicable_actions_bug :
    (exC5A2.preconditions.all fun p =>
      isBoolConstant (subsSimplify [] p) &&
      boolConstantValue (subsSimplify [] p)) = false ∧
    upf_get_applicable_actions_from [exC5A1, exC5A2] [] =
      [exC5A1, exC5A1, exC5A2] := by decide

/-- C6 (amended): `_is_terminal` returns true exactly when every goal
expression simplifies to a concrete true value; a goal that fails to
simplify to a boolean constant makes it return an ordinary false rather
than signalling an evaluation error. -/
theorem c6_is_terminal_iff (goals : List FExpr) (keys : List Nat)
    (memory : List FExpr) :
    up_is_terminal goals keys memory = true ↔
      ∀ g ∈ goals,
        (isBoolConstant (subsSimplify (keys.zip memory) g) &&
         boolConstantValue (subsSimplify (keys.zip memory) g)) = true := by
  simp [up_is_terminal, List.all_eq_true]

/-- Counterexample for C6 as stated: the goal is an unbound leaf that does
not simplify to a boolean constant, and `_is_terminal` returns a normal
false — its only outcomes are the booleans, there is no error path. -/
theorem c6_counterexample :
    isBoolConstant (subsSimplify ([0].zip [FExpr.bconst true])
      (FExpr.param 5)) = false ∧
    up_is_terminal [FExpr.param 5] [0] [FExpr.bconst true] = false := by
  decide

/-- C7: a conditional effect's guard is evaluated, under the pre-transition
assignment map, before the effect applies.  A constant-false guard makes
the transition equal to the transition of the same action without that
effect (it contributes no assignment); a guard that does not simplify to a
boolean constant makes the call fail fatally (the `assert` raises). -/
theorem c7_conditional_effect_guard (keys : List Nat) (memory : List FExpr)
    (a : InstantaneousAction) (l1 l2 : List Effect) (e : Effect) (c : FExpr)
    (hE : a.effects = l1 ++ e :: l2) (hc : e.condition = some c) :
    (subsSimplify (keys.zip memory) c = FExpr.bconst false →
      up_get_next_state keys memory a =
        up_get_next_state keys memory { a with effects := l1 ++ l2 }) ∧
    (isBoolConstant (subsSimplify (keys.zip memory) c) = false →
      checkPreconditions (keys.zip memory) a.preconditions = none →
      (∃ acc, applyEffects (keys.zip memory) l1 [] = some acc) →
      up_get_next_state keys memory a = (none, TResult.fatal)) := by
  constructor
  · intro hgf
    simp only [up_get_next_state]
    cases hp : checkPreconditions (keys.zip memory) a.preconditions with
    | some p => rfl
    | none =>
      have hskip : ∀ acc,
          applyEffects (keys.zip memory) (e :: l2) acc =
            applyEffects (keys.zip memory) l2 acc := by
        intro acc
        simp [applyEffects, hc, hgf, isBoolConstant, boolConstantValue]
      rw [hE, applyEffects_append, applyEffects_append]
      cases applyEffects (keys.zip memory) l1 [] with
      | none => rfl
      | some acc => simp only [hskip]
  · intro hb hpre ⟨acc, hacc⟩
    simp only [up_get_next_state, hpre]
    have hfail : ∀ acc',
        applyEffects (keys.zip memory) (e :: l2) acc' = none := by
      intro acc'
      simp [applyEffects, hc, hb]
    rw [hE, applyEffects_append, hacc]
    simp only [hfail]

/-- Witness for C7: the false-guarded effect is skipped (the transition
equals that of the action without it), and a non-constant guard is
fatal. -/
theorem c7_witness :
    up_get_next_state [0, 1] [FExpr.iconst 0, FExpr.iconst 0] exC7Action =
      up_get_next_state [0, 1] [FExpr.iconst 0, FExpr.iconst 0]
        { exC7Action with effects := [] ++ [exC7NormEffect] } ∧
    up_get_next_state [0] [FExpr.iconst 0] exC7FatalAction =
      (none, TResult.fatal) :=
  ⟨(c7_conditional_effect_guard [0, 1] [FExpr.iconst 0, FExpr.iconst 0]
      exC7Action [] [exC7NormEffect] exC7GuardedEffect (.bconst false)
      rfl rfl).1 rfl,
   (c7_conditional_effect_guard [0] [FExpr.iconst 0] exC7FatalAction [] []
      { condition := some (.param 0), fluent := 0, kind := .assign,
        value := .iconst 5 } (.param 0) rfl rfl).2 rfl rfl ⟨[], rfl⟩⟩

/-- Successor characterisation for an action with a single unguarded effect
and no simulated effect: the target key receives the effect's evaluation
result. -/
theorem up_single_effect_get? (keys : List Nat) (memory : List FExpr)
    (a : InstantaneousAction) (e : Effect) (i : Nat)
    (hnd : keys.Nodup) (hlen : memory.length = keys.length)
    (hE : a.effects = [e]) (hcond : e.condition = none)
    (hsim : a.simulated_effect = none)
    (hpre : checkPreconditions (keys.zip memory) a.preconditions = none)
    (hik : keys.get? i = some e.fluent) :
    ∃ s', up_get_next_state keys memory a = (none, .next s') ∧
      s'.get? i = some (effectResult (keys.zip memory) e) := by
  have heff : applyEffects (keys.zip memory) a.effects [] =
      some [(e.fluent, effectResult (keys.zip memory) e)] := by
    rw [hE]
    simp [applyEffects, hcond, updateOne]
  have hmem : e.fluent ∈ keys := List.get?_mem hik
  have hk : ∀ x,
      hasKey (applySim (keys.zip memory)
        [(e.fluent, effectResult (keys.zip memory) e)]
        a.simulated_effect) x = true → x ∈ keys := by
    intro x hx
    rw [hsim] at hx
    have hx' : hasKey [(e.fluent, effectResult (keys.zip memory) e)] x =
        true := hx
    simp only [hasKey] at hx'
    by_cases hfx : e.fluent = x
    · exact hfx ▸ hmem
    · rw [if_neg hfx] at hx'
      simp [hasKey] at hx'
  obtain ⟨s', h1, h2, h3⟩ :=
    up_next_state_get? keys memory a
      [(e.fluent, effectResult (keys.zip memory) e)] hnd hlen hpre heff hk
  have hi : i < keys.length := (List.get?_eq_some.mp hik).1
  cases hm : memory.get? i with
  | none =>
    rw [List.get?_eq_none] at hm
    omega
  | some v =>
    have h4 := h3 i e.fluent v hik hm
    rw [hsim] at h4
    have happ : applySim (keys.zip memory)
        [(e.fluent, effectResult (keys.zip memory) e)] none =
        [(e.fluent, effectResult (keys.zip memory) e)] := rfl
    rw [happ] at h4
    refine ⟨s', h1, ?_⟩
    rw [h4]
    simp [lookupLast]

/-- C8: on an applicable action, an increase (resp. decrease) effect gives
the target fluent the current value plus (resp. minus) the effect's value
expression, both evaluated under the pre-transition substitution; integer
operands stay integers and rational operands stay rationals (no widening
between the two); an assignment effect replaces the value outright with the
evaluated value expression. -/
theorem c8_numeric_effects (keys : List Nat) (memory : List FExpr)
    (a : InstantaneousAction) (e : Effect) (i : Nat)
    (hnd : keys.Nodup) (hlen : memory.length = keys.length)
    (hE : a.effects = [e]) (hcond : e.condition = none)
    (hsim : a.simulated_effect = none)
    (hpre : checkPreconditions (keys.zip memory) a.preconditions = none)
    (hik : keys.get? i = some e.fluent) :
    (∀ cur v : Int,
      lookupA (keys.zip memory) e.fluent = some (.iconst cur) →
      subsSimplify (keys.zip memory) e.value = .iconst v →
      (e.kind = .increase →
        ∃ s', up_get_next_state keys memory a = (none, .next s') ∧
          s'.get? i = some (.iconst (cur + v))) ∧
      (e.kind = .decrease →
        ∃ s', up_get_next_state keys memory a = (none, .next s') ∧
          s'.get? i = some (.iconst (cur - v)))) ∧
    (∀ cur v : ℚ,
      lookupA (keys.zip memory) e.fluent = some (.qconst cur) →
      subsSimplify (keys.zip memory) e.value = .qconst v →
      (e.kind = .increase →
        ∃ s', up_get_next_state keys memory a = (none, .next s') ∧
          s'.get? i = some (.qconst (cur + v))) ∧
      (e.kind = .decrease →
        ∃ s', up_get_next_state keys memory a = (none, .next s') ∧
          s'.get? i = some (.qconst (cur - v)))) ∧
    (e.kind = .assign →
      ∃ s', up_get_next_state keys memory a = (none, .next s') ∧
        s'.get? i = some (subsSimplify (keys.zip memory) e.value)) := by
  obtain ⟨s', h1, h2⟩ :=
    up_single_effect_get? keys memory a e i hnd hlen hE hcond hsim hpre hik
  refine ⟨?_, ?_, ?_⟩
  · intro cur v hcur hv
    simp only [subsSimplify] at hv
    constructor
    · intro hkind
      refine ⟨s', h1, ?_⟩
      rw [h2]
      simp only [effectResult, hkind, subsSimplify, subst, hcur]
      simp [simplify, hv, constVal, valPlus, constOf]
    · intro hkind
      refine ⟨s', h1, ?_⟩
      rw [h2]
      simp only [effectResult, hkind, subsSimplify, subst, hcur]
      simp [simplify, hv, constVal, valMinus, constOf]
  · intro cur v hcur hv
    simp only [subsSimplify] at hv
    constructor
    · intro hkind
      refine ⟨s', h1, ?_⟩
      rw [h2]
      simp only [effectResult, hkind, subsSimplify, subst, hcur]
      simp [simplify, hv, constVal, valPlus, constOf]
    · intro hkind
      refine ⟨s', h1, ?_⟩
      rw [h2]
      simp only [effectResult, hkind, subsSimplify, subst, hcur]
      simp [simplify, hv, constVal, valMinus, constOf]
  · intro hkind
    refine ⟨s', h1, ?_⟩
    rw [h2]
    simp [effectResult, hkind]

/-- Witness for C8: increasing the integer 2 by 3 gives the integer 5;
decreasing the rational 1/2 by 1/4 gives the rational 1/4; assignment
replaces the value with the evaluated expression. -/
theorem c8_witness :
    (∃ s', up_get_next_state [0] [FExpr.iconst 2] exC8IncAction =
        (none, .next s') ∧
      s'.get? 0 = some (FExpr.iconst ((2 : Int) + 3))) ∧
    (∃ s', up_get_next_state [0] [FExpr.qconst (1 / 2)] exC8RatDecAction =
        (none, .next s') ∧
      s'.get? 0 = some (FExpr.qconst ((1 / 2 : ℚ) - 1 / 4))) ∧
    (∃ s', up_get_next_state [0] [FExpr.iconst 0] exC8AssignAction =
        (none, .next s') ∧
      s'.get? 0 = some (subsSimplify ([0].zip [FExpr.iconst 0])
        (FExpr.iconst 7))) :=
  ⟨((c8_numeric_effects [0] [FExpr.iconst 2] exC8IncAction
      { condition := none, fluent := 0, kind := .increase,
        value := .iconst 3 } 0 (by decide) rfl rfl rfl rfl rfl rfl).1
      2 3 rfl rfl).1 rfl,
   ((c8_numeric_effects [0] [FExpr.qconst (1 / 2)] exC8RatDecAction
      { condition := none, fluent := 0, kind := .decrease,
        value := .qconst (1 / 4) } 0 (by decide) rfl rfl rfl rfl rfl
      rfl).2.1 (1 / 2) (1 / 4) rfl rfl).2 rfl,
   (c8_numeric_effects [0] [FExpr.iconst 0] exC8AssignAction
      { condition := none, fluent := 0, kind := .assign,
        value := .iconst 7 } 0 (by decide) rfl rfl rfl rfl rfl rfl).2.2
      rfl⟩

/-- C9: in both adapter versions the transition-value computation is a
placeholder computing nothing from the problem's cost or reward fluents:
the current adapter returns the constant cost 1 for every state, action and
next state, and the legacy adapter returns nothing at all. -/
theorem c9_transition_value_placeholder :
    (∀ (m : List FExpr) (a : InstantaneousAction) (s : Option (List FExpr)),
      up_get_transition_value m a s = { cost := 1 }) ∧
    (∀ (m : Assignments) (a : UpfActionInstance) (s : Option Assignments),
      upf_get_transition_value m a s = none) :=
  ⟨fun _ _ _ => rfl, fun _ _ _ => rfl⟩

/-- C10: the simulated effect's outputs are written into the pending
assignment map after all declarative effects, so for a fluent targeted by
both, the successor holds the simulated effect's value — whatever the
declarative effects wrote for that fluent. -/
theorem c10_simulated_effect_overrides (keys : List Nat)
    (memory : List FExpr) (a : InstantaneousAction) (ν : Assignments)
    (se : SimulatedEffect) (i j k : Nat) (v : FExpr)
    (hnd : keys.Nodup) (hlen : memory.length = keys.length)
    (hpre : checkPreconditions (keys.zip memory) a.preconditions = none)
    (heff : applyEffects (keys.zip memory) a.effects [] = some ν)
    (hsim : a.simulated_effect = some se)
    (htargets : ∀ e ∈ a.effects, e.fluent ∈ keys)
    (hsf : ∀ x ∈ se.fluents, x ∈ keys)
    (hndf : se.fluents.Nodup)
    (hflen : se.fluents.length ≤ (se.function (keys.zip memory)).length)
    (hj : (se.fluents.zip (se.function (keys.zip memory))).get? j =
      some (k, v))
    (hik : keys.get? i = some k) :
    ∃ s', up_get_next_state keys memory a = (none, .next s') ∧
      s'.get? i = some v := by
  have hνk : ∀ x, hasKey ν x = true → x ∈ keys := by
    intro x hx
    rcases hasKey_applyEffects _ _ [] ν heff x hx with h1 | h1
    · simp [hasKey] at h1
    · obtain ⟨e, he, hef⟩ := List.mem_map.mp h1
      exact hef ▸ htargets e he
  have hk : ∀ x,
      hasKey (applySim (keys.zip memory) ν a.simulated_effect) x = true →
      x ∈ keys := by
    intro x hx
    rw [hsim] at hx
    rcases hasKey_updateA _ _ x hx with h1 | h1
    · exact hνk x h1
    · exact hsf x (hasKey_zip_mem _ _ x h1)
  obtain ⟨s', h1, h2, h3⟩ :=
    up_next_state_get? keys memory a ν hnd hlen hpre heff hk
  have hi : i < keys.length := (List.get?_eq_some.mp hik).1
  cases hm : memory.get? i with
  | none =>
    rw [List.get?_eq_none] at hm
    omega
  | some v0 =>
    have h4 := h3 i k v0 hik hm
    rw [hsim] at h4
    have hνnd : (ν.map Prod.fst).Nodup :=
      nodupKeys_applyEffects _ _ [] ν (by simp) heff
    have hfnd : ((se.fluents.zip
        (se.function (keys.zip memory))).map Prod.fst).Nodup := by
      rw [List.map_fst_zip _ _ hflen]
      exact hndf
    have hνfnd : ((applySim (keys.zip memory) ν (some se)).map
        Prod.fst).Nodup := nodupKeys_updateA _ _ hνnd
    rw [lookupLast_eq_lookupA _ k hνfnd] at h4
    have hA : applySim (keys.zip memory) ν (some se) =
        updateA ν (se.fluents.zip (se.function (keys.zip memory))) := rfl
    rw [hA, lookupA_updateA] at h4
    have hlp : lookupLast (se.fluents.zip
        (se.function (keys.zip memory))) k = some v := by
      rw [lookupLast_eq_lookupA _ k hfnd]
      exact lookupA_of_get? _ j k v hfnd hj
    rw [hlp] at h4
    exact ⟨s', h1, by simpa using h4⟩

/-- Witness for C10: the declarative effect writes 9 to fluent 0, the
simulated effect writes 4; the successor holds 4. -/
theorem c10_witness :
    (∃ s', up_get_next_state [0] [FExpr.iconst 0] exC10Action =
        (none, .next s') ∧ s'.get? 0 = some (FExpr.iconst 4)) ∧
    up_get_next_state [0] [FExpr.iconst 0] exC10Action =
      (none, .next [FExpr.iconst 4]) :=
  ⟨c10_simulated_effect_overrides [0] [FExpr.iconst 0] exC10Action
      [(0, FExpr.iconst 9)] exC10Sim 0 0 0 (FExpr.iconst 4) (by decide) rfl
      rfl rfl rfl (by decide) (by decide) (by decide) (by decide) rfl rfl,
   by decide⟩

end UpSkdecide
